import Mathlib

namespace YtGraphRag

/-!
# Verification of the yt-graph-rag transformation pipeline

A shallow embedding, in Lean 4, of the core pipeline of the repository:
the overlapping-window audio chunker (`chains/video_chunking.py`), the
segment transcriber (`chains/transcription.py`), the transcript unifier
(`chains/unifiy_transcriptions.py`), the refinement stages
(`chains/ortography_correction.py`, `chains/correference_resolution.py`,
`chains/translation.py`), the structured-output stage
(`chains/get_structured_output.py`), the Neo4j graph loader
(`etl_load.py`) and the embedding-maintenance step
(`generate_embeddings.py`).

External collaborators (the LLM calls, the Whisper parser, the embedding
service, the file system) are modelled as function parameters; the Neo4j
property graph and the Cypher statements issued by the loader are
modelled explicitly.  Theorems about the embedded definitions settle the
specification's claims.
-/

/-! ## Window Chunker (`chains/video_chunking.py`)

`YoutubeChunkingChain._call` splits an audio of `total` milliseconds with
`for idx, start_ms in enumerate(range(0, total, step))` where
`step = chunk_length_ms - overlap_ms`, and each chunk is
`audio[start_ms : min(start_ms + chunk_length_ms, total)]`.
`pyRange a stop step` embeds Python's `range(a, stop, step)` for a
positive step. -/

def pyRange (start stop step : Nat) : List Nat :=
  if _h : 0 < step ∧ start < stop then
    start :: pyRange (start + step) stop step
  else []
termination_by stop - start
decreasing_by omega

/-- One emitted audio segment: its start and (clamped) end offset in ms. -/
structure ChunkSeg where
  start_ms : Nat
  end_ms : Nat
deriving DecidableEq

/-- The list of segments produced by the chunking loop of
`YoutubeChunkingChain._call` (lines 101-125 of `video_chunking.py`). -/
def chunkSegments (chunk_length_ms overlap_ms total : Nat) : List ChunkSeg :=
  (pyRange 0 total (chunk_length_ms - overlap_ms)).map
    (fun start_ms => ⟨start_ms, min (start_ms + chunk_length_ms) total⟩)

/-! ## Segment Transcriber (`chains/transcription.py`)

`WhisperTranscriptionChain._call` walks `chunk_paths` in order; for each
path it checks `Path(path).exists()` and raises `FileNotFoundError` when the
check fails, otherwise it appends the parser's transcription of that chunk.
The file-system check and the Whisper parser are modelled by the function
parameters `fexists` and `parse`. -/

def transcribeChunks (fexists : String → Bool) (parse : String → String) :
    List String → Except String (List String)
  | [] => .ok []
  | p :: rest =>
    if fexists p then
      match transcribeChunks fexists parse rest with
      | .ok ts => .ok (parse p :: ts)
      | .error e => .error e
    else .error ("Chunk not found: " ++ p)

/-! ## Transcript Unifier (`chains/unifiy_transcriptions.py`)

`UnifyTranscriptsChain._call` returns `{"_video_id": vid,
"unified_transcript": ""}` when the transcript list is empty, and otherwise
folds the external unifier chain (`merge`) over the transcripts with the
accumulator `unified_transcript` initialised to `""`. -/

def unifyCall (merge : String → String → String) (video_id : String)
    (transcripts : List String) : String × String :=
  if transcripts.isEmpty then (video_id, "")
  else (video_id, transcripts.foldl (fun unified_transcript chunk => merge unified_transcript chunk) "")

/-! ## Refinement stages: empty-input fast paths

`OrtographyCorrectionChain._call`, `CorreferenceResolutionChain._call`,
`TranslationChain._call` and `GetStructuredOutputChain._call` all read
their textual input with `inputs.get(key)` (missing key gives `None`) and
short-circuit on a falsy value (missing key or `""`), returning an empty
output text without invoking the external chain.  A missing-or-present
input is an `Option String`; `textFalsy` is Python's `not text`. -/

def textFalsy : Option String → Bool
  | none => true
  | some t => t == ""

/-- `OrtographyCorrectionChain._call`: output `(video_id, corrected_text)`. -/
def ortographyCall (correct : String → String) (video_id : String)
    (unified_transcript : Option String) : String × String :=
  if textFalsy unified_transcript then (video_id, "")
  else (video_id, correct (unified_transcript.getD ""))

/-- `CorreferenceResolutionChain._call`: the external chain receives the
video title and description (read from the metadata sidecar, modelled by
`getMeta`) and the text; output `(video_id, correference_resolution_text)`. -/
def correferenceCall (resolve : String → String → String → String)
    (getMeta : String → String × String) (video_id : String)
    (corrected_text : Option String) : String × String :=
  if textFalsy corrected_text then (video_id, "")
  else
    (video_id,
      resolve (getMeta video_id).1 (getMeta video_id).2 (corrected_text.getD ""))

/-- Python's `s.lower().strip()` applied to the detector's label in
`TranslationChain._call`: lower-case every character, then remove leading
and trailing whitespace (spelled out on the character list so that the
definition computes by structural recursion). -/
def pyLowerStrip (s : String) : String :=
  String.mk
    ((((s.data.map Char.toLower).dropWhile Char.isWhitespace).reverse.dropWhile
        Char.isWhitespace).reverse)

/-- Output dictionary of `TranslationChain._call`. -/
structure TranslateOutput where
  video_id : String
  spanish_text : String
deriving DecidableEq

/-- `TranslationChain._call`: short-circuits on falsy input; otherwise
classifies the text with `detect`, normalises the label with
`.lower().strip()`, translates on `"valenciano"`, passes through on
`"castellano"`, and raises `ValueError` on any other label. -/
def translationCall (detect translate : String → String) (video_id : String)
    (correference_resolution_text : Option String) : Except String TranslateOutput :=
  if textFalsy correference_resolution_text then .ok ⟨video_id, ""⟩
  else
    let original_text := correference_resolution_text.getD ""
    let language := pyLowerStrip (detect original_text)
    if language = "valenciano" then .ok ⟨video_id, translate original_text⟩
    else if language = "castellano" then .ok ⟨video_id, original_text⟩
    else .error ("Unsupported language: " ++ language)

/-! ## Structured Extractor (`chains/get_structured_output.py`)

`GetStructuredOutputChain._call` declares `output_keys =
["_video_id", "structured_output"]`, but its falsy-input fast path returns
`{"_video_id": vid, "spanish_text": ""}`.  The returned dictionary is
modelled as an association list so that its key set is observable. -/

def getStructuredOutputCall (extract : String → String) (video_id : String)
    (spanish_text : Option String) : List (String × String) :=
  if textFalsy spanish_text then
    [("_video_id", video_id), ("spanish_text", "")]
  else
    [("_video_id", video_id), ("structured_output", extract (spanish_text.getD ""))]

/-! ## Neo4j property-graph model

The graph store mutated by `etl_load.py` and `generate_embeddings.py`.
Property values are strings, numbers (`fuerza_relacion`) or embedding
vectors; a node's or edge's property map is a function from property name
to optional value (`SET x.k = null` removes the property, which is how the
optional pydantic fields load). -/

inductive PVal where
  | str (s : String)
  | num (q : ℚ)
  | vec (v : List ℚ)
deriving DecidableEq

/-- A property map. -/
def Props := String → Option PVal

/-- `SET x.k = v` for a single parameter (`v = none` is Cypher `null`,
which removes the property). -/
def setParam (q : Props) (k : String) (v : Option PVal) : Props :=
  fun k2 => if k2 = k then v else q k2

/-- A Cypher `SET` clause: apply the parameter list left to right. -/
def setParams (q : Props) (ps : List (String × Option PVal)) : Props :=
  ps.foldl (fun q kv => setParam q kv.1 kv.2) q

def emptyProps : Props := fun _ => none

structure GNode where
  labels : List String
  props : Props

structure GEdge where
  src : Nat
  dst : Nat
  typ : String
  props : Props

structure PGraph where
  nodes : List GNode
  edges : List GEdge

/-- Does a node match the `MERGE (p:Label {id: $id})` pattern? -/
def nodeMatches (n : GNode) (l i : String) : Bool :=
  n.labels.contains l && (n.props "id" == some (.str i))

/-- `MERGE (p:Label {id: $id}) SET p.… = $…`: if any node matches the
pattern, `SET` the parameters on every matching node; otherwise create a
node with that label and id and `SET` the parameters on it. -/
def mergeNode (g : PGraph) (l i : String) (ps : List (String × Option PVal)) : PGraph :=
  if g.nodes.any (fun n => nodeMatches n l i) then
    { g with nodes := g.nodes.map (fun n =>
        if nodeMatches n l i then { n with props := setParams n.props ps } else n) }
  else
    { g with nodes := g.nodes ++
        [⟨[l], setParams (setParam emptyProps "id" (some (.str i))) ps⟩] }

/-- `MATCH (x {id: $i})` with no label: the positions of all nodes whose
`id` property equals `$i`. -/
def idxWithId (nodes : List GNode) (i : String) : List Nat :=
  (nodes.enum.filter (fun p => p.2.props "id" == some (.str i))).map Prod.fst

/-- `MERGE (origen)-[r:RELACION]->(destino) SET r.… = $…` for one
`(origen, destino)` row: if a RELACION edge between the two matched nodes
exists, `SET` on every such edge; otherwise create one and `SET` on it. -/
def mergeRelEdge (g : PGraph) (i j : Nat) (ps : List (String × Option PVal)) : PGraph :=
  if g.edges.any (fun e => e.src == i && e.dst == j && e.typ == "RELACION") then
    { g with edges := g.edges.map (fun e =>
        if e.src == i && e.dst == j && e.typ == "RELACION" then
          { e with props := setParams e.props ps }
        else e) }
  else
    { g with edges := g.edges ++ [⟨i, j, "RELACION", setParams emptyProps ps⟩] }

/-! ### The pydantic extraction schema (`pydantic_models/pydantic_models.py`) -/

structure Persona where
  id : String
  tipo : String
  nombre : String
  descripcion : String
  profesion : String

structure Empresa where
  id : String
  tipo : String
  nombre : String
  descripcion : String
  industria : Option String

structure CentroEducativo where
  id : String
  tipo : String
  nombre : String
  descripcion : String
  localizacion : Option String

structure Movimiento where
  id : String
  tipo : String
  nombre : String
  descripcion : String
  categoria : Option String

structure Producto where
  id : String
  tipo : String
  nombre : String
  descripcion : String
  subtipo : Option String

structure Entidades where
  personas : List Persona
  empresas : List Empresa
  centros_educativos : List CentroEducativo
  movimientos : List Movimiento
  productos : List Producto

/-- `Union[Persona, Empresa, CentroEducativo, Movimiento, Producto]`. -/
inductive Entidad where
  | persona (p : Persona)
  | empresa (e : Empresa)
  | centro (c : CentroEducativo)
  | movimiento (m : Movimiento)
  | producto (p : Producto)

def Entidad.entidadId : Entidad → String
  | .persona p => p.id
  | .empresa e => e.id
  | .centro c => c.id
  | .movimiento m => m.id
  | .producto p => p.id

structure Relacion where
  id : String
  entidad_origen : Entidad
  entidad_destino : Entidad
  descripcion_relacion : String
  fuerza_relacion : ℚ

structure Relaciones where
  relaciones : List Relacion

structure OutputSchema where
  entidades : Entidades
  relaciones : Relaciones

/-! ### `etl_load_to_neo4j` (`etl_load.py`, lines 36-163)

The uniqueness-constraint DDL (`_set_uniqueness_constraints`) only creates
schema constraints (`CREATE CONSTRAINT IF NOT EXISTS`); it does not change
the data graph, so it is the identity in this model.  The five entity loops
and the relation loop are translated `SET`-clause for `SET`-clause. -/

def personaParams (p : Persona) : List (String × Option PVal) :=
  [("tipo", some (.str p.tipo)), ("nombre", some (.str p.nombre)),
   ("descripcion", some (.str p.descripcion)), ("profesion", some (.str p.profesion))]

def empresaParams (e : Empresa) : List (String × Option PVal) :=
  [("tipo", some (.str e.tipo)), ("nombre", some (.str e.nombre)),
   ("descripcion", some (.str e.descripcion)), ("industria", e.industria.map PVal.str)]

def centroParams (c : CentroEducativo) : List (String × Option PVal) :=
  [("tipo", some (.str c.tipo)), ("nombre", some (.str c.nombre)),
   ("descripcion", some (.str c.descripcion)), ("localizacion", c.localizacion.map PVal.str)]

def movimientoParams (m : Movimiento) : List (String × Option PVal) :=
  [("tipo", some (.str m.tipo)), ("nombre", some (.str m.nombre)),
   ("descripcion", some (.str m.descripcion)), ("categoria", m.categoria.map PVal.str)]

def productoParams (p : Producto) : List (String × Option PVal) :=
  [("tipo", some (.str p.tipo)), ("nombre", some (.str p.nombre)),
   ("descripcion", some (.str p.descripcion)), ("subtipo", p.subtipo.map PVal.str)]

def relacionParams (r : Relacion) : List (String × Option PVal) :=
  [("descripcion_relacion", some (.str r.descripcion_relacion)),
   ("fuerza_relacion", some (.num r.fuerza_relacion)),
   ("id", some (.str r.id))]

/-- The relation query: `MATCH (origen {id: $id_origen}) MATCH (destino
{id: $id_destino}) MERGE (origen)-[r:RELACION]->(destino) SET …`.  The two
`MATCH` clauses produce the cartesian product of the matching node rows;
the `MERGE`+`SET` runs once per row.  A dangling endpoint produces zero
rows, so the relation is silently skipped. -/
def loadRelacion (g : PGraph) (relacion : Relacion) : PGraph :=
  let srcs := idxWithId g.nodes relacion.entidad_origen.entidadId
  let dsts := idxWithId g.nodes relacion.entidad_destino.entidadId
  (srcs.flatMap (fun i => dsts.map (fun j => (i, j)))).foldl
    (fun g p => mergeRelEdge g p.1 p.2 (relacionParams relacion)) g

/-- The five entity loops of `etl_load_to_neo4j`. -/
def loadEntities (g : PGraph) (r : OutputSchema) : PGraph :=
  let g1 := r.entidades.personas.foldl
    (fun g p => mergeNode g "Persona" p.id (personaParams p)) g
  let g2 := r.entidades.empresas.foldl
    (fun g e => mergeNode g "Empresa" e.id (empresaParams e)) g1
  let g3 := r.entidades.centros_educativos.foldl
    (fun g c => mergeNode g "centroeducativo" c.id (centroParams c)) g2
  let g4 := r.entidades.movimientos.foldl
    (fun g m => mergeNode g "movimiento" m.id (movimientoParams m)) g3
  r.entidades.productos.foldl
    (fun g p => mergeNode g "producto" p.id (productoParams p)) g4

/-- `etl_load_to_neo4j`: upsert all entities, then all relations. -/
def etl_load_to_neo4j (g : PGraph) (r : OutputSchema) : PGraph :=
  r.relaciones.relaciones.foldl loadRelacion (loadEntities g r)

/-! ### `generate_embeddings` (`generate_embeddings.py`, lines 125-156)

The search query returns one record per `Entity` node that has a `text`
property and no `embedding` property, with columns aliased `eid` and
`text`.  The loop body then reads `rec["id"]` — a key that no record has —
and the update query uses `$eid` while passing its parameters under the
keys `id` and `vector`. -/

/-- The records returned by
`MATCH (n:Entity) WHERE n.text IS NOT NULL AND n.embedding IS NULL
RETURN elementId(n) AS eid, n.text AS text`
(element ids are modelled by node positions rendered as strings). -/
def entityRecords (g : PGraph) : List (List (String × PVal)) :=
  (g.nodes.enum.filter (fun p =>
      p.2.labels.contains "Entity" && !(p.2.props "text" == none)
        && (p.2.props "embedding" == none))).map
    (fun p => [("eid", PVal.str (toString p.1)),
               ("text", (p.2.props "text").getD (PVal.str ""))])

def pvalText : PVal → String
  | .str s => s
  | _ => ""

/-- The update query `MATCH (n) WHERE elementId(n) = $eid SET n.embedding =
$vector`, executed with a parameter dictionary `params`: both `$eid` and
`$vector` must be present in `params`, otherwise the driver raises a
missing-parameter error. -/
def setEmbeddingQuery (g : PGraph) (params : List (String × PVal)) :
    Except String PGraph :=
  match params.lookup "eid" with
  | none => .error "ParameterMissing: eid"
  | some eid =>
    match params.lookup "vector" with
    | none => .error "ParameterMissing: vector"
    | some vector =>
      .ok { g with nodes := g.nodes.enum.map (fun p =>
        if PVal.str (toString p.1) == eid then
          { p.2 with props := setParam p.2.props "embedding" (some vector) }
        else p.2) }

/-- The `for rec in records` loop of `generate_embeddings`: the body first
evaluates `rec["id"]` (a `KeyError`, since the record keys are `eid` and
`text`), then `rec["text"]`, then embeds and runs the update query with
`params = {"id": node_id, "vector": vector}`. -/
def setEmbeddingLoop (embed : String → List ℚ) :
    PGraph → List (List (String × PVal)) → Except String PGraph
  | g, [] => .ok g
  | g, rec :: rest =>
    match rec.lookup "id" with
    | none => .error "KeyError: 'id'"
    | some node_id =>
      match rec.lookup "text" with
      | none => .error "KeyError: 'text'"
      | some node_text =>
        let vector := embed (pvalText node_text)
        match setEmbeddingQuery g [("id", node_id), ("vector", PVal.vec vector)] with
        | .error e => .error e
        | .ok g2 => setEmbeddingLoop embed g2 rest

/-- `generate_embeddings(graph)` with the embedding service `embed`. -/
def generate_embeddings (g : PGraph) (embed : String → List ℚ) :
    Except String PGraph :=
  setEmbeddingLoop embed g (entityRecords g)

/-! ### Pointwise characterisation of `SET` clauses -/

/-- The last value a `SET` parameter list assigns to key `k`, if any. -/
def lookupLast (ps : List (String × Option PVal)) (k : String) : Option (Option PVal) :=
  match ps with
  | [] => none
  | kv :: rest =>
    match lookupLast rest k with
    | some v => some v
    | none => if kv.1 = k then some kv.2 else none

/-- The value key `k` holds after a `SET` clause `ps` runs on a property
map whose previous `k` entry is irrelevant (only meaningful when `k` is
among the keys of `ps`). -/
def psVal (ps : List (String × Option PVal)) (k : String) : Option PVal :=
  (lookupLast ps k).getD none

/-! ### A generic MERGE/SET absorption framework

`mergeNode` (on the node list) and `mergeRelEdge` (on the edge list) share
one shape: an operation carries a match predicate `hit`, a `SET` parameter
list `ps` and a freshly created object `mk`; applying it to a list of
objects updates every hit object, or appends `mk` when nothing is hit.
`MLens` is the property lens of the object type. -/

structure MOp (α : Type) where
  hit : α → Bool
  ps : List (String × Option PVal)
  mkObj : α

structure MLens (α : Type) where
  get : α → Props
  put : α → Props → α
  get_put : ∀ x q, get (put x q) = q
  put_put : ∀ x q q2, put (put x q) q2 = put x q2
  put_get : ∀ x, put x (get x) = x

def MLens.upd (S : MLens α) (op : MOp α) (x : α) : α :=
  S.put x (setParams (S.get x) op.ps)

def MLens.condUpd (S : MLens α) (op : MOp α) (x : α) : α :=
  if op.hit x then S.upd op x else x

def MLens.step (S : MLens α) (ns : List α) (op : MOp α) : List α :=
  if ns.any op.hit then ns.map (S.condUpd op) else ns ++ [op.mkObj]

def MLens.run (S : MLens α) (ns : List α) (L : List (MOp α)) : List α :=
  L.foldl S.step ns

/-- Coherence of an operation list: match predicates are invariant under the
updates, each created object is hit by its own operation, an operation
hitting another operation's created object has the same match predicate,
and created objects already carry their operation's `SET` values. -/
structure MCoh (S : MLens α) (L : List (MOp α)) : Prop where
  hit_upd : ∀ op ∈ L, ∀ op2 ∈ L, ∀ x, op.hit (S.upd op2 x) = op.hit x
  hit_mk : ∀ op ∈ L, op.hit op.mkObj = true
  hit_mk_eq : ∀ op ∈ L, ∀ op2 ∈ L, op2.hit op.mkObj = true → ∀ x, op2.hit x = op.hit x
  mk_val : ∀ op ∈ L, ∀ k ∈ op.ps.map Prod.fst, S.get op.mkObj k = psVal op.ps k

/-- Two objects related by `RelAt S L M`: the second is a property-update of
the first, they are hit by exactly the same operations of `L`, and they can
only disagree at keys that some operation of `M` will still write. -/
def RelAt (S : MLens α) (L M : List (MOp α)) (x y : α) : Prop :=
  (∃ q, y = S.put x q) ∧
  (∀ o ∈ L, o.hit y = o.hit x) ∧
  (∀ k, S.get x k = S.get y k ∨ ∃ o ∈ M, o.hit x = true ∧ k ∈ o.ps.map Prod.fst)

/-! ### Instantiating the framework for `etl_load_to_neo4j` -/

def nodeLens : MLens GNode where
  get := GNode.props
  put := fun n q => { n with props := q }
  get_put := fun _ _ => rfl
  put_put := fun _ _ _ => rfl
  put_get := fun _ => rfl

/-- One entity upsert (`MERGE (p:l {id: i}) SET …ps…`) as a merge operation
on the node list. -/
def nodeOp (l i : String) (ps : List (String × Option PVal)) : MOp GNode :=
  ⟨fun n => nodeMatches n l i, ps,
    ⟨[l], setParams (setParam emptyProps "id" (some (.str i))) ps⟩⟩

/-- The node-phase operations of `etl_load_to_neo4j`, in execution order. -/
def nodeOps (r : OutputSchema) : List (MOp GNode) :=
  r.entidades.personas.map (fun p => nodeOp "Persona" p.id (personaParams p)) ++
  r.entidades.empresas.map (fun e => nodeOp "Empresa" e.id (empresaParams e)) ++
  r.entidades.centros_educativos.map
    (fun c => nodeOp "centroeducativo" c.id (centroParams c)) ++
  r.entidades.movimientos.map (fun m => nodeOp "movimiento" m.id (movimientoParams m)) ++
  r.entidades.productos.map (fun p => nodeOp "producto" p.id (productoParams p))

def edgeLens : MLens GEdge where
  get := GEdge.props
  put := fun e q => { e with props := q }
  get_put := fun _ _ => rfl
  put_put := fun _ _ _ => rfl
  put_get := fun _ => rfl

/-- One `MERGE (origen)-[r:RELACION]->(destino) SET …` row as a merge
operation on the edge list. -/
def edgeOp (i j : Nat) (ps : List (String × Option PVal)) : MOp GEdge :=
  ⟨fun e => e.src == i && e.dst == j && e.typ == "RELACION", ps,
    ⟨i, j, "RELACION", setParams emptyProps ps⟩⟩

/-- The `(origen, destino)` rows matched for one relation. -/
def relPairs (ns : List GNode) (relacion : Relacion) : List (Nat × Nat) :=
  (idxWithId ns relacion.entidad_origen.entidadId).flatMap
    (fun i => (idxWithId ns relacion.entidad_destino.entidadId).map (fun j => (i, j)))

/-- The edge-phase operations of `etl_load_to_neo4j`, in execution order
(the node list is fixed during the relation loop). -/
def relOps (ns : List GNode) (rels : List Relacion) : List (MOp GEdge) :=
  rels.flatMap (fun relacion =>
    (relPairs ns relacion).map (fun p => edgeOp p.1 p.2 (relacionParams relacion)))

def cPersonaA : Persona := ⟨"a", "Persona", "A", "da", "pa"⟩

def cPersonaB : Persona := ⟨"b", "Persona", "B", "db", "pb"⟩

def cRel1 : Relacion := ⟨"r1", .persona cPersonaA, .persona cPersonaB, "d1", 1⟩

def cRelBad : Relacion :=
  ⟨"r3", .persona ⟨"c", "Persona", "C", "dc", "pc"⟩, .persona cPersonaB, "d3", 3⟩

def emptyGraph : PGraph := ⟨[], []⟩

def cSchemaDangling : OutputSchema :=
  ⟨⟨[cPersonaA, cPersonaB], [], [], [], []⟩, ⟨[cRel1, cRelBad]⟩⟩

def cSchemaClean : OutputSchema :=
  ⟨⟨[cPersonaA, cPersonaB], [], [], [], []⟩, ⟨[cRel1]⟩⟩

def cRel2 : Relacion := ⟨"r2", .persona cPersonaA, .persona cPersonaB, "d2", 2⟩

def cSchemaDup : OutputSchema :=
  ⟨⟨[cPersonaA, cPersonaB], [], [], [], []⟩, ⟨[cRel1, cRel2]⟩⟩

def cNodeA : GNode := ⟨["Persona"], setParam emptyProps "id" (some (.str "a"))⟩

def cNodeB : GNode := ⟨["Persona"], setParam emptyProps "id" (some (.str "b"))⟩

def cGraphAB : PGraph := ⟨[cNodeA, cNodeB], []⟩

def bugNode : GNode :=
  ⟨["Entity"], fun k => if k = "text" then some (.str "x") else none⟩

/-! ## Theorems -/

theorem ceil_div_succ (d step : Nat) (hstep : 0 < step) (hd : 0 < d) :
    (d + step - 1) / step = (d - step + step - 1) / step + 1 := by
  have h1 : d + step - 1 = (d - 1) + step := by omega
  rw [h1, Nat.add_div_right _ hstep]
  rcases le_or_lt d step with hle | hlt
  · have h2 : d - step = 0 := by omega
    have h3 : d - 1 < step := by omega
    have h4 : step - 1 < step := by omega
    rw [h2, Nat.div_eq_of_lt h3]
    simp [Nat.div_eq_of_lt h4]
  · have h2 : d - step + step - 1 = d - 1 := by omega
    rw [h2]

theorem pyRange_eq_range'_aux (step : Nat) (hstep : 0 < step) :
    ∀ d a stop, stop - a ≤ d →
      pyRange a stop step = List.range' a ((stop - a + step - 1) / step) step := by
  intro d
  induction d with
  | zero =>
    intro a stop hd
    have hge : ¬ a < stop := by omega
    rw [pyRange]
    have hz : stop - a = 0 := by omega
    simp [hge, hz, Nat.div_eq_of_lt (show step - 1 < step by omega)]
  | succ d ih =>
    intro a stop hd
    by_cases hlt : a < stop
    · rw [pyRange]
      simp only [hstep, hlt, and_true, dif_pos]
      have hrec : stop - (a + step) ≤ d := by omega
      rw [ih (a + step) stop hrec]
      have hco : (stop - a + step - 1) / step = (stop - (a + step) + step - 1) / step + 1 := by
        have := ceil_div_succ (stop - a) step hstep (by omega)
        have h2 : stop - a - step = stop - (a + step) := by omega
        rw [h2] at this
        exact this
      rw [hco, List.range'_succ]
    · rw [pyRange]
      have hz : stop - a = 0 := by omega
      simp [hlt, hz, Nat.div_eq_of_lt (show step - 1 < step by omega)]

theorem pyRange_eq_range' (stop step : Nat) (hstep : 0 < step) :
    pyRange 0 stop step = List.range' 0 ((stop + step - 1) / step) step := by
  have := pyRange_eq_range'_aux step hstep stop 0 stop (by omega)
  simpa using this

theorem chunkSegments_eq (chunk overlap T : Nat) (hov : overlap < chunk) :
    chunkSegments chunk overlap T =
      (List.range' 0 ((T + (chunk - overlap) - 1) / (chunk - overlap)) (chunk - overlap)).map
        (fun start_ms => ⟨start_ms, min (start_ms + chunk) T⟩) := by
  rw [chunkSegments, pyRange_eq_range' T (chunk - overlap) (by omega)]

/-- **C1.** For every configuration with `chunk_length_ms > overlap_ms ≥ 0` and
every total duration `T` (ms), the Window Chunker emits segments at start
offsets `0, step, 2*step, …` (`step = chunk_length_ms - overlap_ms`) while
`start < T`, each with end offset `min (start + chunk_length_ms) T`; it
produces `⌈T / step⌉` segments, each of length at most `chunk_length_ms`, and
the half-open intervals `[start, end)` cover `[0, T)` with no gaps.  The
concrete scenario `chunk_ms = 4000, overlap_ms = 1000, T = 10000` yields
exactly the 4 segments with starts `[0, 3000, 6000, 9000]` and ends
`[4000, 7000, 10000, 10000]`. -/
theorem window_chunker_correct (chunk overlap T step : Nat)
    (hov : overlap < chunk) (hstep : step = chunk - overlap) :
    (chunkSegments chunk overlap T).length = (T + step - 1) / step ∧
    (∀ i (hi : i < (chunkSegments chunk overlap T).length),
        ((chunkSegments chunk overlap T).get ⟨i, hi⟩).start_ms = i * step ∧
        ((chunkSegments chunk overlap T).get ⟨i, hi⟩).end_ms = min (i * step + chunk) T) ∧
    (∀ s ∈ chunkSegments chunk overlap T, s.start_ms < T ∧ s.end_ms - s.start_ms ≤ chunk) ∧
    (∀ t, t < T → ∃ s ∈ chunkSegments chunk overlap T, s.start_ms ≤ t ∧ t < s.end_ms) ∧
    chunkSegments 4000 1000 10000 =
      [⟨0, 4000⟩, ⟨3000, 7000⟩, ⟨6000, 10000⟩, ⟨9000, 10000⟩] := by
  have hstep0 : 0 < step := by omega
  have hrw : chunkSegments chunk overlap T =
      (List.range' 0 ((T + step - 1) / step) step).map
        (fun start_ms => ⟨start_ms, min (start_ms + chunk) T⟩) := by
    rw [chunkSegments, ← hstep, pyRange_eq_range' T step hstep0]
  rw [hrw]
  refine ⟨by simp, ?_, ?_, ?_, ?_⟩
  · intro i hi
    have hi' : i < (T + step - 1) / step := by
      simpa using hi
    constructor
    · rw [List.get_eq_getElem, List.getElem_map, List.getElem_range']
      simp [Nat.mul_comm]
    · rw [List.get_eq_getElem, List.getElem_map, List.getElem_range']
      simp [Nat.mul_comm]
  · intro s hs
    rcases List.mem_map.mp hs with ⟨x, hx, hfx⟩
    rcases List.mem_range'.mp hx with ⟨i, hi, hxi⟩
    subst hfx
    have hlt : x < T := by
      subst hxi
      simp only [Nat.zero_add]
      rcases Nat.eq_zero_or_pos T with hT | hT
      · subst hT
        have : (0 + step - 1) / step = 0 := Nat.div_eq_of_lt (by omega)
        omega
      · have hn1 : (T + step - 1) / step = (T - 1) / step + 1 := by
          have h1 : T + step - 1 = (T - 1) + step := by omega
          rw [h1, Nat.add_div_right _ hstep0]
        have hile : i ≤ (T - 1) / step := by omega
        have hmono : step * i ≤ step * ((T - 1) / step) := Nat.mul_le_mul_left step hile
        have hcomm : step * ((T - 1) / step) = (T - 1) / step * step := Nat.mul_comm _ _
        have hdm : (T - 1) / step * step ≤ T - 1 := Nat.div_mul_le_self (T - 1) step
        omega
    constructor
    · exact hlt
    · simp only []
      omega
  · intro t ht
    have hT1 : 1 ≤ T := by omega
    have hn1 : (T + step - 1) / step = (T - 1) / step + 1 := by
      have h1 : T + step - 1 = (T - 1) + step := by omega
      rw [h1, Nat.add_div_right _ hstep0]
    have hi : t / step < (T + step - 1) / step := by
      have hle : t / step ≤ (T - 1) / step := Nat.div_le_div_right (by omega)
      omega
    have hmod := Nat.div_add_mod t step
    have hmlt : t % step < step := Nat.mod_lt t hstep0
    refine ⟨⟨step * (t / step), min (step * (t / step) + chunk) T⟩, ?_, ?_, ?_⟩
    · refine List.mem_map.mpr ⟨step * (t / step), ?_, rfl⟩
      exact List.mem_range'.mpr ⟨t / step, hi, by omega⟩
    · simp only []
      omega
    · simp only []
      omega
  · have h4 : chunkSegments 4000 1000 10000 =
        (List.range' 0 ((10000 + (4000 - 1000) - 1) / (4000 - 1000)) (4000 - 1000)).map
          (fun start_ms => ⟨start_ms, min (start_ms + 4000) 10000⟩) :=
      chunkSegments_eq 4000 1000 10000 (by omega)
    rw [h4]
    decide

/-- Witness for `window_chunker_correct`: the theorem applied at the concrete
configuration `chunk = 4000`, `overlap = 1000`, `T = 10000`. -/
theorem window_chunker_correct_witness :
    1000 < 4000 ∧ (chunkSegments 4000 1000 10000).length = (10000 + 3000 - 1) / 3000 :=
  ⟨by decide, (window_chunker_correct 4000 1000 10000 3000 (by decide) (by decide)).1⟩

/-- **C5.** The Segment Transcriber returns a transcripts list with exactly
the same length and order as the input segment paths (one transcript per
path, in path order); and any input list containing a missing file makes it
raise an error, producing no partial transcript list at all. -/
theorem whisper_transcription_order_and_fail_fast (fexists : String → Bool)
    (parse : String → String) (paths : List String) :
    ((∀ p ∈ paths, fexists p = true) →
        transcribeChunks fexists parse paths = .ok (paths.map parse)) ∧
    ((∃ p ∈ paths, fexists p = false) →
        ∃ e, transcribeChunks fexists parse paths = .error e) := by
  constructor
  · intro hall
    induction paths with
    | nil => rfl
    | cons p rest ih =>
      have hp : fexists p = true := hall p (by simp)
      have hrest := ih (fun q hq => hall q (by simp [hq]))
      simp [transcribeChunks, hp, hrest]
  · intro hmiss
    induction paths with
    | nil => simp at hmiss
    | cons p rest ih =>
      by_cases hp : fexists p = true
      · rcases hmiss with ⟨q, hq, hqf⟩
        rcases List.mem_cons.mp hq with hq1 | hq2
        · subst hq1
          rw [hp] at hqf
          cases hqf
        · rcases ih ⟨q, hq2, hqf⟩ with ⟨e, he⟩
          refine ⟨e, ?_⟩
          simp [transcribeChunks, hp, he]
      · have hp' : fexists p = false := by
          cases hfe : fexists p
          · rfl
          · exact absurd hfe hp
        exact ⟨"Chunk not found: " ++ p, by simp [transcribeChunks, hp']⟩

/-- Witness for `whisper_transcription_order_and_fail_fast`: applied to the
two-path list `["a", "b"]` with every file present, and to `["a", "gone"]`
with one missing file. -/
theorem whisper_transcription_witness :
    transcribeChunks (fun p => !(p == "gone")) (fun p => p ++ "!") ["a", "b"] =
      .ok ["a!", "b!"] ∧
    ∃ e, transcribeChunks (fun p => !(p == "gone")) (fun p => p ++ "!") ["a", "gone"] =
      .error e :=
  ⟨(whisper_transcription_order_and_fail_fast _ _ ["a", "b"]).1 (by decide),
   (whisper_transcription_order_and_fail_fast _ _ ["a", "gone"]).2
     ⟨"gone", by decide, by decide⟩⟩

/-- **C7, counterexample.** The claim "for every single-element transcript
list `[t]` the Unifier returns exactly `t` unchanged" is false on the code:
the code invokes the external merge once on `("", t)` and returns whatever
the merge returns.  With a merge that returns `"X"` on every input, the
unified text for `["a"]` is `"X"`, not `"a"`. -/
theorem unify_singleton_claim_counterexample :
    unifyCall (fun _ _ => "X") "v" ["a"] = ("v", "X") ∧
    unifyCall (fun _ _ => "X") "v" ["a"] ≠ ("v", "a") := by
  constructor
  · rfl
  · decide

/-- **C7, amended.** For every single-element transcript list `[t]`, the
Unifier returns the external merge applied once to the empty accumulator and
`t`; whenever that merge call returns its second argument on an empty
accumulator, the unified text is exactly `t` unchanged. -/
theorem unify_singleton (merge : String → String → String) (vid t : String) :
    unifyCall merge vid [t] = (vid, merge "" t) ∧
    (merge "" t = t → unifyCall merge vid [t] = (vid, t)) := by
  constructor
  · rfl
  · intro hid
    simp [unifyCall, hid]

/-- Witness for `unify_singleton`: with string concatenation as merge,
`merge "" "x" = "x"`, so the singleton list `["x"]` unifies to `"x"`. -/
theorem unify_singleton_witness :
    ("" ++ "x" = "x") ∧ unifyCall (fun a b => a ++ b) "v" ["x"] = ("v", "x") :=
  ⟨rfl, (unify_singleton (fun a b => a ++ b) "v" "x").2 rfl⟩

/-- **C8.** Every stage's empty-input fast path is a non-error no-op that
never invokes the external call: the Unifier on an empty transcript list
returns an empty unified text, and the Corrector, Coreference Resolver and
Translator on an empty or missing input text return an empty output text —
in each case the result is the same for every possible external call
function, so the external call cannot have been consulted. -/
theorem empty_input_fast_paths (vid : String) :
    (∀ merge : String → String → String, unifyCall merge vid [] = (vid, "")) ∧
    (∀ correct : String → String, ∀ inp : Option String, textFalsy inp = true →
        ortographyCall correct vid inp = (vid, "")) ∧
    (∀ resolve getMeta, ∀ inp : Option String, textFalsy inp = true →
        correferenceCall resolve getMeta vid inp = (vid, "")) ∧
    (∀ detect translate : String → String, ∀ inp : Option String, textFalsy inp = true →
        translationCall detect translate vid inp = .ok ⟨vid, ""⟩) := by
  refine ⟨fun merge => rfl, ?_, ?_, ?_⟩
  · intro correct inp h
    simp [ortographyCall, h]
  · intro resolve getMeta inp h
    simp [correferenceCall, h]
  · intro detect translate inp h
    simp [translationCall, h]

/-- Witness for `empty_input_fast_paths`: the fast paths evaluated at
concrete external calls, for both the missing input (`none`) and the
empty-string input (`some ""`). -/
theorem empty_input_fast_paths_witness :
    unifyCall (fun a b => a ++ b) "v" [] = ("v", "") ∧
    ortographyCall (fun t => t ++ "corr") "v" none = ("v", "") ∧
    correferenceCall (fun _ _ t => t) (fun _ => ("t", "d")) "v" (some "") = ("v", "") ∧
    translationCall (fun _ => "castellano") (fun t => t) "v" none = .ok ⟨"v", ""⟩ :=
  ⟨(empty_input_fast_paths "v").1 _,
   (empty_input_fast_paths "v").2.1 _ none (by decide),
   (empty_input_fast_paths "v").2.2.1 _ _ (some "") (by decide),
   (empty_input_fast_paths "v").2.2.2 _ _ none (by decide)⟩

/-- **C6.** For every non-empty input text the Translator stage's result is
decided by the classifier label: label `"castellano"` returns the input text
unchanged and the result does not depend on the translation call at all
(so the translation call is never consulted); label `"valenciano"` returns
the translation call's output; and the stage errors exactly when the
normalised label is neither of the two. -/
theorem translation_label_dispatch (detect translate : String → String)
    (vid t lang : String) (ht : t ≠ "")
    (hlang : lang = pyLowerStrip (detect t)) :
    (lang = "castellano" →
        translationCall detect translate vid (some t) = .ok ⟨vid, t⟩) ∧
    (lang = "castellano" → ∀ translate₂ : String → String,
        translationCall detect translate vid (some t) =
          translationCall detect translate₂ vid (some t)) ∧
    (lang = "valenciano" →
        translationCall detect translate vid (some t) = .ok ⟨vid, translate t⟩) ∧
    ((∃ e, translationCall detect translate vid (some t) = .error e) ↔
        (lang ≠ "valenciano" ∧ lang ≠ "castellano")) := by
  have hfal : textFalsy (some t) = false := by
    simp [textFalsy, ht]
  refine ⟨?_, ?_, ?_, ?_⟩
  · intro hc
    have hnv : ¬ pyLowerStrip (detect t) = "valenciano" := by
      rw [← hlang, hc]; decide
    simp [translationCall, hfal, hnv, ← hlang, hc]
  · intro hc translate₂
    have hnv : ¬ pyLowerStrip (detect t) = "valenciano" := by
      rw [← hlang, hc]; decide
    simp [translationCall, hfal, hnv, ← hlang, hc]
  · intro hv
    simp [translationCall, hfal, ← hlang, hv]
  · constructor
    · rintro ⟨e, he⟩
      by_cases hv : lang = "valenciano"
      · simp [translationCall, hfal, ← hlang, hv] at he
      · by_cases hc : lang = "castellano"
        · have hnv : ¬ pyLowerStrip (detect t) = "valenciano" := by rw [← hlang]; exact hv
          simp [translationCall, hfal, hnv, ← hlang, hc] at he
        · exact ⟨hv, hc⟩
    · rintro ⟨hv, hc⟩
      have hnv : ¬ pyLowerStrip (detect t) = "valenciano" := by rw [← hlang]; exact hv
      have hnc : ¬ pyLowerStrip (detect t) = "castellano" := by rw [← hlang]; exact hc
      exact ⟨"Unsupported language: " ++ pyLowerStrip (detect t),
        by simp [translationCall, hfal, hnv, hnc]⟩

/-- Witness for `translation_label_dispatch`: a detector answering
`" CASTELLANO "` (normalised to `"castellano"`) makes the stage return the
input `"hola"` byte-for-byte. -/
theorem translation_label_dispatch_witness :
    ("hola" ≠ "" ) ∧
    translationCall (fun _ => " CASTELLANO ") (fun t => t ++ "-tr") "v" (some "hola") =
      .ok ⟨"v", "hola"⟩ :=
  ⟨by decide,
   (translation_label_dispatch (fun _ => " CASTELLANO ") (fun t => t ++ "-tr")
      "v" "hola" "castellano" (by decide) (by decide)).1 rfl⟩

/-- **C10.** When the Structured Extractor's input `spanish_text` is empty or
missing, the returned dictionary contains the keys `_video_id` and
`spanish_text` (the latter mapped to `""`) and does *not* contain the
declared output key `structured_output` — a downstream lookup of
`"structured_output"` on the result yields nothing. -/
theorem structured_output_empty_input_keys (extract : String → String)
    (vid : String) (inp : Option String) (h : textFalsy inp = true) :
    (getStructuredOutputCall extract vid inp).lookup "_video_id" = some vid ∧
    (getStructuredOutputCall extract vid inp).lookup "spanish_text" = some "" ∧
    (getStructuredOutputCall extract vid inp).lookup "structured_output" = none := by
  simp [getStructuredOutputCall, h, List.lookup]

/-- Witness for `structured_output_empty_input_keys`: evaluated at the empty
input string. -/
theorem structured_output_empty_input_keys_witness :
    (getStructuredOutputCall (fun t => t) "v" (some "")).lookup "structured_output" = none :=
  (structured_output_empty_input_keys (fun t => t) "v" (some "") (by decide)).2.2

theorem setParams_apply (q : Props) (ps : List (String × Option PVal)) (k : String) :
    setParams q ps k = (lookupLast ps k).getD (q k) := by
  induction ps generalizing q with
  | nil => rfl
  | cons kv rest ih =>
    have hstep : setParams q (kv :: rest) = setParams (setParam q kv.1 kv.2) rest := rfl
    rw [hstep, ih]
    cases hrest : lookupLast rest k with
    | some v => simp [lookupLast, hrest]
    | none =>
      by_cases hk : kv.1 = k
      · simp [lookupLast, hrest, hk, setParam]
      · have hk2 : ¬ k = kv.1 := fun h => hk h.symm
        simp [lookupLast, hrest, hk, setParam, hk2]

theorem lookupLast_eq_none (ps : List (String × Option PVal)) (k : String)
    (h : k ∉ ps.map Prod.fst) : lookupLast ps k = none := by
  induction ps with
  | nil => rfl
  | cons kv rest ih =>
    have hk : kv.1 ≠ k := by
      intro he
      exact h (by simp [he.symm])
    have hrest : k ∉ rest.map Prod.fst := fun hm => h (by simp [hm])
    simp [lookupLast, ih hrest, hk]

theorem lookupLast_isSome (ps : List (String × Option PVal)) (k : String)
    (h : k ∈ ps.map Prod.fst) : ∃ v, lookupLast ps k = some v := by
  induction ps with
  | nil => simp at h
  | cons kv rest ih =>
    by_cases hm : k ∈ rest.map Prod.fst
    · rcases ih hm with ⟨v, hv⟩
      exact ⟨v, by simp [lookupLast, hv]⟩
    · have hk : kv.1 = k := by
        rcases List.mem_map.mp h with ⟨x, hx, hfx⟩
        rcases List.mem_cons.mp hx with h1 | h2
        · rw [h1] at hfx; exact hfx
        · exact absurd (List.mem_map.mpr ⟨x, h2, hfx⟩) hm
      exact ⟨kv.2, by simp [lookupLast, lookupLast_eq_none rest k hm, hk]⟩

theorem setParams_apply_not_mem (q : Props) (ps : List (String × Option PVal))
    (k : String) (h : k ∉ ps.map Prod.fst) : setParams q ps k = q k := by
  rw [setParams_apply, lookupLast_eq_none ps k h]
  rfl

theorem setParams_apply_mem (q : Props) (ps : List (String × Option PVal))
    (k : String) (h : k ∈ ps.map Prod.fst) : setParams q ps k = psVal ps k := by
  rcases lookupLast_isSome ps k h with ⟨v, hv⟩
  rw [setParams_apply, psVal, hv]
  rfl

/-- Re-running a `SET` clause whose keys are contained in a later `SET`
clause leaves nothing observable: the second clause overwrites everything
the first touched. -/
theorem setParams_absorb (q : Props) (ps1 ps2 : List (String × Option PVal))
    (hsub : ∀ k ∈ ps1.map Prod.fst, k ∈ ps2.map Prod.fst) :
    setParams (setParams q ps1) ps2 = setParams q ps2 := by
  funext k
  by_cases h2 : k ∈ ps2.map Prod.fst
  · rw [setParams_apply_mem _ ps2 k h2, setParams_apply_mem _ ps2 k h2]
  · have h1 : k ∉ ps1.map Prod.fst := fun hm => h2 (hsub k hm)
    rw [setParams_apply_not_mem _ ps2 k h2, setParams_apply_not_mem _ ps2 k h2,
      setParams_apply_not_mem _ ps1 k h1]

theorem any_congr (l : List α) (p q : α → Bool) (h : ∀ x ∈ l, p x = q x) :
    l.any p = l.any q := by
  induction l with
  | nil => rfl
  | cons x rest ih =>
    simp only [List.any_cons]
    rw [h x (by simp), ih (fun y hy => h y (by simp [hy]))]

theorem mrg_condUpd_hit (S : MLens α) (L : List (MOp α)) (hC : MCoh S L)
    {op op2 : MOp α} (hop : op ∈ L) (hop2 : op2 ∈ L) (x : α) :
    op.hit (S.condUpd op2 x) = op.hit x := by
  rw [MLens.condUpd]
  by_cases h : op2.hit x
  · rw [if_pos h, hC.hit_upd op hop op2 hop2 x]
  · rw [if_neg h]

theorem mrg_any_step (S : MLens α) (L : List (MOp α)) (hC : MCoh S L)
    {op op2 : MOp α} (hop : op ∈ L) (hop2 : op2 ∈ L) (ns : List α)
    (h : ns.any op.hit = true) : (S.step ns op2).any op.hit = true := by
  rw [MLens.step]
  by_cases hany : ns.any op2.hit
  · rw [if_pos hany]
    rcases List.any_eq_true.mp h with ⟨x, hx, hhit⟩
    refine List.any_eq_true.mpr ⟨S.condUpd op2 x, List.mem_map_of_mem _ hx, ?_⟩
    rw [mrg_condUpd_hit S L hC hop hop2 x]
    exact hhit
  · rw [if_neg hany, List.any_append, h, Bool.true_or]

theorem mrg_any_run (S : MLens α) (L : List (MOp α)) (hC : MCoh S L)
    {op : MOp α} (hop : op ∈ L) (M : List (MOp α)) (hM : ∀ o ∈ M, o ∈ L) :
    ∀ ns, ns.any op.hit = true → (S.run ns M).any op.hit = true := by
  induction M with
  | nil => intro ns h; exact h
  | cons o M2 ih =>
    intro ns h
    exact ih (fun o2 ho2 => hM o2 (by simp [ho2])) (S.step ns o)
      (mrg_any_step S L hC hop (hM o (by simp)) ns h)

theorem mrg_step_self_any (S : MLens α) (L : List (MOp α)) (hC : MCoh S L)
    {op : MOp α} (hop : op ∈ L) (ns : List α) :
    (S.step ns op).any op.hit = true := by
  rw [MLens.step]
  by_cases hany : ns.any op.hit
  · rw [if_pos hany]
    rcases List.any_eq_true.mp hany with ⟨x, hx, hhit⟩
    refine List.any_eq_true.mpr ⟨S.condUpd op x, List.mem_map_of_mem _ hx, ?_⟩
    rw [mrg_condUpd_hit S L hC hop hop x]
    exact hhit
  · rw [if_neg hany, List.any_append]
    simp [hC.hit_mk op hop]

theorem mrg_allhit (S : MLens α) (L : List (MOp α)) (hC : MCoh S L) :
    ∀ (M : List (MOp α)), (∀ o ∈ M, o ∈ L) → ∀ {op}, op ∈ M →
      ∀ ns, (S.run ns M).any op.hit = true := by
  intro M
  induction M with
  | nil => intro _ op hop; simp at hop
  | cons o M2 ih =>
    intro hM op hop ns
    rcases List.mem_cons.mp hop with h1 | h2
    · subst h1
      exact mrg_any_run S L hC (hM op (by simp)) M2
        (fun o2 ho2 => hM o2 (by simp [ho2])) (S.step ns op)
        (mrg_step_self_any S L hC (hM op (by simp)) ns)
    · exact ih (fun o2 ho2 => hM o2 (by simp [ho2])) h2 (S.step ns o)

/-- Right after an operation runs, every object it hits carries the
operation's `SET` value at each of the operation's keys. -/
theorem mrg_step_val (S : MLens α) (L : List (MOp α)) (hC : MCoh S L)
    {op : MOp α} (hop : op ∈ L) {k : String} (hk : k ∈ op.ps.map Prod.fst)
    (ns : List α) :
    ∀ y ∈ S.step ns op, op.hit y = true → S.get y k = psVal op.ps k := by
  intro y hy hhy
  rw [MLens.step] at hy
  by_cases hany : ns.any op.hit
  · rw [if_pos hany] at hy
    rcases List.mem_map.mp hy with ⟨y0, hy0, hyeq⟩
    subst hyeq
    have hh0 : op.hit y0 = true := by
      rw [← mrg_condUpd_hit S L hC hop hop y0]
      exact hhy
    rw [MLens.condUpd, if_pos hh0, MLens.upd, S.get_put, setParams_apply_mem _ _ _ hk]
  · rw [if_neg hany] at hy
    rcases List.mem_append.mp hy with h1 | h2
    · exfalso
      have : ns.any op.hit = true := List.any_eq_true.mpr ⟨y, h1, hhy⟩
      exact hany this
    · have hymk : y = op.mkObj := by simpa using h2
      subst hymk
      exact hC.mk_val op hop k hk

/-- After running a suffix `M`, an object hit by `op` either still carries
`op`'s `SET` value at key `k`, or some operation of `Mfull` wrote key `k`
on it. -/
theorem mrg_run_val (S : MLens α) (L : List (MOp α)) (hC : MCoh S L)
    {op : MOp α} (hop : op ∈ L) {k : String}
    (Mfull : List (MOp α)) (hMfull : ∀ o ∈ Mfull, o ∈ L) :
    ∀ (M : List (MOp α)), (∀ o ∈ M, o ∈ Mfull) → ∀ ns,
      (∀ y ∈ ns, op.hit y = true →
        (S.get y k = psVal op.ps k ∨
          ∃ o ∈ Mfull, o.hit y = true ∧ k ∈ o.ps.map Prod.fst)) →
      ns.any op.hit = true →
      ∀ x ∈ S.run ns M, op.hit x = true →
        S.get x k = psVal op.ps k ∨
          ∃ o ∈ Mfull, o.hit x = true ∧ k ∈ o.ps.map Prod.fst := by
  intro M
  induction M with
  | nil => intro _ ns inv1 _ x hx; exact inv1 x hx
  | cons o2 M2 ih =>
    intro hM ns inv1 inv2 x hx hhit
    have ho2L : o2 ∈ L := hMfull o2 (hM o2 (by simp))
    refine ih (fun o ho => hM o (by simp [ho])) (S.step ns o2) ?_
      (mrg_any_step S L hC hop ho2L ns inv2) x hx hhit
    intro y hy hhy
    rw [MLens.step] at hy
    by_cases hany : ns.any o2.hit
    · rw [if_pos hany] at hy
      rcases List.mem_map.mp hy with ⟨y0, hy0, hyeq⟩
      subst hyeq
      have hh0 : op.hit y0 = true := by
        rw [← mrg_condUpd_hit S L hC hop ho2L y0]
        exact hhy
      rw [MLens.condUpd]
      by_cases hh : o2.hit y0
      · rw [if_pos hh]
        by_cases hkm : k ∈ o2.ps.map Prod.fst
        · refine Or.inr ⟨o2, hM o2 (by simp), ?_, hkm⟩
          rw [hC.hit_upd o2 ho2L o2 ho2L y0]
          exact hh
        · have hgy : S.get (S.upd o2 y0) k = S.get y0 k := by
            rw [MLens.upd, S.get_put, setParams_apply_not_mem _ _ _ hkm]
          rw [hgy]
          rcases inv1 y0 hy0 hh0 with hL | ⟨o, ho, hoh, hokm⟩
          · exact Or.inl hL
          · refine Or.inr ⟨o, ho, ?_, hokm⟩
            rw [hC.hit_upd o (hMfull o ho) o2 ho2L y0]
            exact hoh
      · rw [if_neg hh]
        exact inv1 y0 hy0 hh0
    · rw [if_neg hany] at hy
      rcases List.mem_append.mp hy with h1 | h2
      · exact inv1 y h1 hhy
      · exfalso
        have hymk : y = o2.mkObj := by simpa using h2
        subst hymk
        have heq : ∀ z, op.hit z = o2.hit z := hC.hit_mk_eq o2 ho2L op hop hhy
        have : ns.any o2.hit = true := by
          rw [← any_congr ns op.hit o2.hit (fun z _ => heq z)]
          exact inv2
        exact hany this

theorem forall₂_any_eq {β : Type} (R : α → β → Prop) (p : α → Bool) (q : β → Bool)
    (h : ∀ x y, R x y → p x = q y) :
    ∀ {l1 : List α} {l2 : List β}, List.Forall₂ R l1 l2 → l1.any p = l2.any q := by
  intro l1 l2 hf
  induction hf with
  | nil => rfl
  | cons hR hf2 ih => simp only [List.any_cons]; rw [h _ _ hR, ih]

theorem forall₂_map_map {β : Type} {R R2 : α → β → Prop} (f : α → α) (g : β → β)
    (h : ∀ x y, R x y → R2 (f x) (g y)) :
    ∀ {l1 : List α} {l2 : List β}, List.Forall₂ R l1 l2 →
      List.Forall₂ R2 (l1.map f) (l2.map g) := by
  intro l1 l2 hf
  induction hf with
  | nil => exact List.Forall₂.nil
  | cons hR hf2 ih => exact List.Forall₂.cons (h _ _ hR) ih

theorem forall₂_append_single {β : Type} {R : α → β → Prop} {l1 : List α}
    {l2 : List β} (h : List.Forall₂ R l1 l2) {x : α} {y : β} (hxy : R x y) :
    List.Forall₂ R (l1 ++ [x]) (l2 ++ [y]) := by
  induction h with
  | nil => exact List.Forall₂.cons hxy List.Forall₂.nil
  | cons hR hf ih => exact List.Forall₂.cons hR ih

theorem forall₂_self_map (f : α → α) (R : α → α → Prop) (l : List α)
    (h : ∀ x ∈ l, R x (f x)) : List.Forall₂ R l (l.map f) := by
  induction l with
  | nil => exact List.Forall₂.nil
  | cons x rest ih =>
    exact List.Forall₂.cons (h x (by simp)) (ih (fun y hy => h y (by simp [hy])))

theorem relat_shrink (S : MLens α) (L : List (MOp α)) {o2 : MOp α}
    {M2 : List (MOp α)} {x y : α} (hr : RelAt S L (o2 :: M2) x y)
    (hh : o2.hit x = false) : RelAt S L M2 x y := by
  refine ⟨hr.1, hr.2.1, ?_⟩
  intro k
  rcases hr.2.2 k with hL | ⟨o, ho, hoh, hokm⟩
  · exact Or.inl hL
  · rcases List.mem_cons.mp ho with h1 | h2
    · subst h1
      rw [hoh] at hh
      cases hh
    · exact Or.inr ⟨o, h2, hoh, hokm⟩

theorem forall₂_relat_shrink (S : MLens α) (L : List (MOp α)) {o2 : MOp α}
    {M2 : List (MOp α)} :
    ∀ {l1 l2 : List α}, List.Forall₂ (RelAt S L (o2 :: M2)) l1 l2 →
      (∀ x ∈ l1, o2.hit x = false) → List.Forall₂ (RelAt S L M2) l1 l2 := by
  intro l1 l2 hf
  induction hf with
  | nil => intro _; exact List.Forall₂.nil
  | cons hR hf2 ih =>
    intro hfalse
    exact List.Forall₂.cons (relat_shrink _ _ hR (hfalse _ (by simp)))
      (ih (fun x hx => hfalse x (by simp [hx])))

theorem relat_condUpd (S : MLens α) (L : List (MOp α)) (hC : MCoh S L)
    {o2 : MOp α} (ho2L : o2 ∈ L) {M2 : List (MOp α)} (hM2 : ∀ o ∈ M2, o ∈ L)
    {x y : α} (hr : RelAt S L (o2 :: M2) x y) :
    RelAt S L M2 (S.condUpd o2 x) (S.condUpd o2 y) := by
  rcases hr with ⟨⟨q, hq⟩, hhits, hget⟩
  have hhit2 : o2.hit y = o2.hit x := hhits o2 ho2L
  by_cases hh : o2.hit x = true
  · have hcx : S.condUpd o2 x = S.upd o2 x := by rw [MLens.condUpd, if_pos hh]
    have hcy : S.condUpd o2 y = S.upd o2 y := by
      rw [MLens.condUpd, if_pos (by rw [hhit2]; exact hh)]
    rw [hcx, hcy]
    refine ⟨⟨setParams (S.get y) o2.ps, ?_⟩, ?_, ?_⟩
    · rw [MLens.upd, MLens.upd, hq, S.put_put, S.put_put]
    · intro o hoL
      rw [hC.hit_upd o hoL o2 ho2L y, hC.hit_upd o hoL o2 ho2L x, hhits o hoL]
    · intro k
      by_cases hkm : k ∈ o2.ps.map Prod.fst
      · refine Or.inl ?_
        rw [MLens.upd, MLens.upd, S.get_put, S.get_put,
          setParams_apply_mem _ _ _ hkm, setParams_apply_mem _ _ _ hkm]
      · have hgx : S.get (S.upd o2 x) k = S.get x k := by
          rw [MLens.upd, S.get_put, setParams_apply_not_mem _ _ _ hkm]
        have hgy : S.get (S.upd o2 y) k = S.get y k := by
          rw [MLens.upd, S.get_put, setParams_apply_not_mem _ _ _ hkm]
        rw [hgx, hgy]
        rcases hget k with hL | ⟨o, ho, hoh, hokm⟩
        · exact Or.inl hL
        · rcases List.mem_cons.mp ho with h1 | h2
          · subst h1
            exact absurd hokm hkm
          · refine Or.inr ⟨o, h2, ?_, hokm⟩
            rw [hC.hit_upd o (hM2 o h2) o2 ho2L x]
            exact hoh
  · have hh' : o2.hit x = false := by
      cases hv : o2.hit x
      · rfl
      · exact absurd hv hh
    have hcx : S.condUpd o2 x = x := by rw [MLens.condUpd, if_neg hh]
    have hcy : S.condUpd o2 y = y := by
      rw [MLens.condUpd, if_neg (by rw [hhit2]; exact hh)]
    rw [hcx, hcy]
    exact relat_shrink S L ⟨⟨q, hq⟩, hhits, hget⟩ hh'

/-- Running the same operation suffix on two pointwise-related lists erases
the differences: every key at which related objects disagree is overwritten
by the suffix. -/
theorem mrg_run_congr (S : MLens α) (L : List (MOp α)) (hC : MCoh S L) :
    ∀ (M : List (MOp α)), (∀ o ∈ M, o ∈ L) →
      ∀ ns1 ns2, List.Forall₂ (RelAt S L M) ns1 ns2 →
        S.run ns1 M = S.run ns2 M := by
  intro M
  induction M with
  | nil =>
    intro _ ns1 ns2 hf
    have heq : ns1 = ns2 := by
      rw [← List.forall₂_eq_eq_eq]
      refine hf.imp ?_
      rintro x y ⟨⟨q, hq⟩, _, hget⟩
      have hgeq : S.get x = S.get y := by
        funext k
        rcases hget k with h | h
        · exact h
        · rcases h with ⟨o, ho, _⟩
          simp at ho
      have hyq : S.get y = q := by rw [hq, S.get_put]
      rw [hq, ← hyq, ← hgeq, S.put_get]
    rw [heq]
  | cons o2 M2 ih =>
    intro hM ns1 ns2 hf
    have ho2L : o2 ∈ L := hM o2 (by simp)
    have hM2 : ∀ o ∈ M2, o ∈ L := fun o ho => hM o (by simp [ho])
    have hanyeq : ns1.any o2.hit = ns2.any o2.hit :=
      forall₂_any_eq (RelAt S L (o2 :: M2)) o2.hit o2.hit
        (fun x y hr => (hr.2.1 o2 ho2L).symm) hf
    have hstepf : List.Forall₂ (RelAt S L M2) (S.step ns1 o2) (S.step ns2 o2) := by
      rw [MLens.step, MLens.step, hanyeq]
      by_cases hany : ns2.any o2.hit = true
      · rw [if_pos hany, if_pos hany]
        exact forall₂_map_map _ _ (fun x y hr => relat_condUpd S L hC ho2L hM2 hr) hf
      · rw [if_neg hany, if_neg hany]
        have hfalse : ∀ x ∈ ns1, o2.hit x = false := by
          intro x hx
          cases hv : o2.hit x
          · rfl
          · exfalso
            refine hany ?_
            rw [← hanyeq]
            exact List.any_eq_true.mpr ⟨x, hx, hv⟩
        have hshrunk : List.Forall₂ (RelAt S L M2) ns1 ns2 :=
          forall₂_relat_shrink S L hf hfalse
        exact forall₂_append_single hshrunk
          ⟨⟨S.get o2.mkObj, (S.put_get o2.mkObj).symm⟩, fun o ho => rfl,
            fun k => Or.inl rfl⟩
    exact ih hM2 (S.step ns1 o2) (S.step ns2 o2) hstepf

/-- Main absorption theorem: re-running a coherent operation list over its
own result is the identity. -/
theorem mrg_run_absorb (S : MLens α) (L : List (MOp α)) (hC : MCoh S L)
    (ns : List α) : S.run (S.run ns L) L = S.run ns L := by
  suffices h : ∀ L2 L1, L1 ++ L2 = L → S.run (S.run ns L) L2 = S.run ns L by
    exact h L [] rfl
  intro L2
  induction L2 with
  | nil => intro L1 h; rfl
  | cons op L2' ih =>
    intro L1 h
    have hop : op ∈ L := by rw [← h]; simp
    have hL2' : ∀ o ∈ L2', o ∈ L := by
      intro o ho
      rw [← h]
      simp [ho]
    have hIH : S.run (S.run ns L) L2' = S.run ns L := ih (L1 ++ [op]) (by rw [← h]; simp)
    have hany : (S.run ns L).any op.hit = true :=
      mrg_allhit S L hC L (fun o ho => ho) (by rw [← h]; simp) ns
    have hstep : S.step (S.run ns L) op = (S.run ns L).map (S.condUpd op) := by
      rw [MLens.step, if_pos hany]
    have hdecomp : S.run ns L = S.run (S.step (S.run ns L1) op) L2' := by
      conv_lhs => rw [← h]
      rw [MLens.run, MLens.run, List.foldl_append]
      rfl
    have hrel : List.Forall₂ (RelAt S L L2') (S.run ns L)
        ((S.run ns L).map (S.condUpd op)) := by
      refine forall₂_self_map _ _ _ ?_
      intro x hx
      refine ⟨?_, ?_, ?_⟩
      · rw [MLens.condUpd]
        by_cases hh : op.hit x = true
        · rw [if_pos hh]
          exact ⟨setParams (S.get x) op.ps, rfl⟩
        · rw [if_neg hh]
          exact ⟨S.get x, (S.put_get x).symm⟩
      · intro o hoL
        exact mrg_condUpd_hit S L hC hoL hop x
      · intro k
        by_cases hh : op.hit x = true
        · by_cases hkm : k ∈ op.ps.map Prod.fst
          · have hval : S.get x k = psVal op.ps k ∨
                ∃ o ∈ L2', o.hit x = true ∧ k ∈ o.ps.map Prod.fst := by
              refine mrg_run_val S L hC hop L2' hL2' L2' (fun o ho => ho)
                (S.step (S.run ns L1) op) ?_
                (mrg_step_self_any S L hC hop (S.run ns L1)) x ?_ hh
              · intro y hy hhy
                exact Or.inl (mrg_step_val S L hC hop hkm (S.run ns L1) y hy hhy)
              · rw [← hdecomp]
                exact hx
            rcases hval with hL | hR
            · refine Or.inl ?_
              have hgy : S.get (S.condUpd op x) k = psVal op.ps k := by
                rw [MLens.condUpd, if_pos hh, MLens.upd, S.get_put,
                  setParams_apply_mem _ _ _ hkm]
              rw [hgy, hL]
            · exact Or.inr hR
          · refine Or.inl ?_
            rw [MLens.condUpd]
            by_cases hh2 : op.hit x = true
            · rw [if_pos hh2, MLens.upd, S.get_put, setParams_apply_not_mem _ _ _ hkm]
            · rw [if_neg hh2]
        · refine Or.inl ?_
          rw [MLens.condUpd, if_neg hh]
    have hfinal : S.run (S.step (S.run ns L) op) L2' = S.run ns L := by
      rw [hstep]
      rw [← mrg_run_congr S L hC L2' hL2' (S.run ns L) ((S.run ns L).map (S.condUpd op)) hrel]
      exact hIH
    exact hfinal

theorem mergeNode_eq_step (g : PGraph) (l i : String)
    (ps : List (String × Option PVal)) :
    mergeNode g l i ps = ⟨nodeLens.step g.nodes (nodeOp l i ps), g.edges⟩ := by
  rw [mergeNode, MLens.step,
    show (nodeOp l i ps).hit = fun n => nodeMatches n l i from rfl]
  by_cases h : g.nodes.any (fun n => nodeMatches n l i)
  · rw [if_pos h, if_pos h]
    rfl
  · rw [if_neg h, if_neg h]
    rfl

theorem mergeRelEdge_eq_step (g : PGraph) (i j : Nat)
    (ps : List (String × Option PVal)) :
    mergeRelEdge g i j ps = ⟨g.nodes, edgeLens.step g.edges (edgeOp i j ps)⟩ := by
  rw [mergeRelEdge, MLens.step,
    show (edgeOp i j ps).hit =
      fun e => e.src == i && e.dst == j && e.typ == "RELACION" from rfl]
  by_cases h : g.edges.any (fun e => e.src == i && e.dst == j && e.typ == "RELACION")
  · rw [if_pos h, if_pos h]
    rfl
  · rw [if_neg h, if_neg h]
    rfl

theorem foldl_mergeNode_run {β : Type} (lab idf : β → String)
    (psf : β → List (String × Option PVal)) :
    ∀ (xs : List β) (g : PGraph),
      xs.foldl (fun g x => mergeNode g (lab x) (idf x) (psf x)) g =
        ⟨nodeLens.run g.nodes (xs.map (fun x => nodeOp (lab x) (idf x) (psf x))),
          g.edges⟩ := by
  intro xs
  induction xs with
  | nil => intro g; rfl
  | cons x xs ih =>
    intro g
    rw [List.foldl_cons, mergeNode_eq_step, ih]
    rfl

theorem loadEntities_eq_run (ns : List GNode) (es : List GEdge) (r : OutputSchema) :
    loadEntities ⟨ns, es⟩ r = ⟨nodeLens.run ns (nodeOps r), es⟩ := by
  simp only [loadEntities]
  rw [foldl_mergeNode_run (fun _ => "Persona") Persona.id personaParams,
    foldl_mergeNode_run (fun _ => "Empresa") Empresa.id empresaParams,
    foldl_mergeNode_run (fun _ => "centroeducativo") CentroEducativo.id centroParams,
    foldl_mergeNode_run (fun _ => "movimiento") Movimiento.id movimientoParams,
    foldl_mergeNode_run (fun _ => "producto") Producto.id productoParams]
  simp only [nodeOps, MLens.run, List.foldl_append]

theorem foldl_mergeRelEdge_run (ps : List (String × Option PVal)) :
    ∀ (pairs : List (Nat × Nat)) (g : PGraph),
      pairs.foldl (fun g p => mergeRelEdge g p.1 p.2 ps) g =
        ⟨g.nodes, edgeLens.run g.edges (pairs.map (fun p => edgeOp p.1 p.2 ps))⟩ := by
  intro pairs
  induction pairs with
  | nil => intro g; rfl
  | cons p pairs ih =>
    intro g
    rw [List.foldl_cons, mergeRelEdge_eq_step, ih]
    rfl

theorem loadRelacion_eq_run (g : PGraph) (relacion : Relacion) :
    loadRelacion g relacion =
      ⟨g.nodes, edgeLens.run g.edges
        ((relPairs g.nodes relacion).map
          (fun p => edgeOp p.1 p.2 (relacionParams relacion)))⟩ := by
  simp only [loadRelacion]
  rw [foldl_mergeRelEdge_run]
  rfl

theorem foldl_loadRelacion_run :
    ∀ (rels : List Relacion) (g : PGraph),
      rels.foldl loadRelacion g = ⟨g.nodes, edgeLens.run g.edges (relOps g.nodes rels)⟩ := by
  intro rels
  induction rels with
  | nil => intro g; rfl
  | cons relacion rels ih =>
    intro g
    rw [List.foldl_cons, loadRelacion_eq_run, ih]
    simp only [relOps, List.flatMap_cons, MLens.run, List.foldl_append]

theorem etl_load_eq_run (ns : List GNode) (es : List GEdge) (r : OutputSchema) :
    etl_load_to_neo4j ⟨ns, es⟩ r =
      ⟨nodeLens.run ns (nodeOps r),
        edgeLens.run es (relOps (nodeLens.run ns (nodeOps r)) r.relaciones.relaciones)⟩ := by
  rw [etl_load_to_neo4j, loadEntities_eq_run, foldl_loadRelacion_run]

/-! ### Coherence of the loader's operation lists -/

theorem nodeOps_shape (r : OutputSchema) :
    ∀ op ∈ nodeOps r, ∃ l i ps, op = nodeOp l i ps ∧ "id" ∉ ps.map Prod.fst := by
  intro op hop
  rw [nodeOps] at hop
  simp only [List.mem_append, List.mem_map] at hop
  rcases hop with ((((⟨p, _, hp⟩ | ⟨e, _, he⟩) | ⟨c, _, hc⟩) | ⟨m, _, hm⟩) | ⟨pr, _, hpr⟩)
  · exact ⟨_, _, _, hp.symm,
      by simp only [personaParams, List.map_cons, List.map_nil]; decide⟩
  · exact ⟨_, _, _, he.symm,
      by simp only [empresaParams, List.map_cons, List.map_nil]; decide⟩
  · exact ⟨_, _, _, hc.symm,
      by simp only [centroParams, List.map_cons, List.map_nil]; decide⟩
  · exact ⟨_, _, _, hm.symm,
      by simp only [movimientoParams, List.map_cons, List.map_nil]; decide⟩
  · exact ⟨_, _, _, hpr.symm,
      by simp only [productoParams, List.map_cons, List.map_nil]; decide⟩

theorem nodeOp_coh (L : List (MOp GNode))
    (hshape : ∀ op ∈ L, ∃ l i ps, op = nodeOp l i ps ∧ "id" ∉ ps.map Prod.fst) :
    MCoh nodeLens L := by
  constructor
  · intro op hop op2 hop2 x
    rcases hshape op hop with ⟨l, i, ps, hopval, _⟩
    rcases hshape op2 hop2 with ⟨l2, i2, ps2, hop2val, hid2⟩
    subst hopval
    subst hop2val
    show nodeMatches ⟨x.labels, setParams x.props ps2⟩ l i = nodeMatches x l i
    rw [nodeMatches, nodeMatches]
    dsimp only
    rw [setParams_apply_not_mem _ _ _ hid2]
  · intro op hop
    rcases hshape op hop with ⟨l, i, ps, hopval, hid⟩
    subst hopval
    show nodeMatches ⟨[l], setParams (setParam emptyProps "id" (some (.str i))) ps⟩ l i = true
    rw [nodeMatches]
    dsimp only
    rw [setParams_apply_not_mem _ _ _ hid]
    simp [setParam]
  · intro op hop op2 hop2 hhit x
    rcases hshape op hop with ⟨l, i, ps, hopval, hid⟩
    rcases hshape op2 hop2 with ⟨l2, i2, ps2, hop2val, _⟩
    subst hopval
    subst hop2val
    have hhit2 : nodeMatches ⟨[l], setParams (setParam emptyProps "id" (some (.str i))) ps⟩ l2 i2 = true := hhit
    rw [nodeMatches] at hhit2
    dsimp only at hhit2
    rw [setParams_apply_not_mem _ _ _ hid] at hhit2
    simp only [setParam, Bool.and_eq_true] at hhit2
    rcases hhit2 with ⟨hl, hi⟩
    have hleq : l2 = l := by
      simpa using hl
    have hieq : i2 = i := by
      have := of_decide_eq_true hi
      simp at this
      exact this.symm
    subst hleq
    subst hieq
    rfl
  · intro op hop k hk
    rcases hshape op hop with ⟨l, i, ps, hopval, _⟩
    subst hopval
    show setParams (setParam emptyProps "id" (some (.str i))) ps k = psVal ps k
    exact setParams_apply_mem _ _ _ hk

theorem relOps_shape (ns : List GNode) (rels : List Relacion) :
    ∀ op ∈ relOps ns rels, ∃ i j ps, op = edgeOp i j ps := by
  intro op hop
  rw [relOps] at hop
  rcases List.mem_flatMap.mp hop with ⟨relacion, _, hmem⟩
  rcases List.mem_map.mp hmem with ⟨p, _, hpeq⟩
  exact ⟨p.1, p.2, relacionParams relacion, hpeq.symm⟩

theorem edgeOp_coh (L : List (MOp GEdge))
    (hshape : ∀ op ∈ L, ∃ i j ps, op = edgeOp i j ps) : MCoh edgeLens L := by
  constructor
  · intro op hop op2 hop2 x
    rcases hshape op hop with ⟨i, j, ps, hopval⟩
    subst hopval
    rfl
  · intro op hop
    rcases hshape op hop with ⟨i, j, ps, hopval⟩
    subst hopval
    show (i == i && j == j && "RELACION" == "RELACION") = true
    simp
  · intro op hop op2 hop2 hhit x
    rcases hshape op hop with ⟨i, j, ps, hopval⟩
    rcases hshape op2 hop2 with ⟨i2, j2, ps2, hop2val⟩
    subst hopval
    subst hop2val
    have hhit2 : (i == i2 && j == j2 && ("RELACION" == "RELACION")) = true := hhit
    simp only [Bool.and_eq_true, beq_iff_eq] at hhit2
    rcases hhit2 with ⟨⟨hi, hj⟩, _⟩
    subst hi
    subst hj
    rfl
  · intro op hop k hk
    rcases hshape op hop with ⟨i, j, ps, hopval⟩
    subst hopval
    show setParams emptyProps ps k = psVal ps k
    exact setParams_apply_mem _ _ _ hk

/-- **C2.** Loading the same Extraction Result twice is the same as loading
it once: from any starting graph, the second `etl_load_to_neo4j` run leaves
the graph (nodes, edges and all their properties) literally unchanged. -/
theorem etl_load_idempotent (g : PGraph) (r : OutputSchema) :
    etl_load_to_neo4j (etl_load_to_neo4j g r) r = etl_load_to_neo4j g r := by
  cases g with
  | mk ns es =>
    have hNcoh : MCoh nodeLens (nodeOps r) := nodeOp_coh _ (nodeOps_shape r)
    have hNabs : nodeLens.run (nodeLens.run ns (nodeOps r)) (nodeOps r) =
        nodeLens.run ns (nodeOps r) := mrg_run_absorb _ _ hNcoh ns
    have hEcoh : MCoh edgeLens
        (relOps (nodeLens.run ns (nodeOps r)) r.relaciones.relaciones) :=
      edgeOp_coh _ (relOps_shape _ _)
    rw [etl_load_eq_run ns es r, etl_load_eq_run, hNabs,
      mrg_run_absorb edgeLens _ hEcoh es]

/-! ### Relation identity (C3) and dangling relations (C9) -/

theorem mergeRelEdge_nodes (g : PGraph) (i j : Nat)
    (ps : List (String × Option PVal)) : (mergeRelEdge g i j ps).nodes = g.nodes := by
  rw [mergeRelEdge_eq_step]

theorem loadRelacion_nodes (g : PGraph) (relacion : Relacion) :
    (loadRelacion g relacion).nodes = g.nodes := by
  rw [loadRelacion_eq_run]

theorem foldl_loadRelacion_nodes (rels : List Relacion) (g : PGraph) :
    (rels.foldl loadRelacion g).nodes = g.nodes := by
  rw [foldl_loadRelacion_run]

/-- A relation whose matched source rows or matched target rows are empty
produces zero `(origen, destino)` rows, so its load is a no-op. -/
theorem loadRelacion_dangling (g : PGraph) (relacion : Relacion)
    (h : idxWithId g.nodes relacion.entidad_origen.entidadId = [] ∨
        idxWithId g.nodes relacion.entidad_destino.entidadId = []) :
    loadRelacion g relacion = g := by
  simp only [loadRelacion]
  rcases h with h | h
  · rw [h]
    rfl
  · rw [h]
    have hnil : (idxWithId g.nodes relacion.entidad_origen.entidadId).flatMap
        (fun i => ([] : List Nat).map (fun j => (i, j))) = [] := by
      induction idxWithId g.nodes relacion.entidad_origen.entidadId with
      | nil => rfl
      | cons a rest ih => simp [ih]
    rw [hnil]
    rfl

/-- **C9.** A relation whose source or target identifier matches no node is
skipped without error, and the rest of the Extraction Result (all entities
and every other relation) loads exactly as if the dangling relation were
absent. -/
theorem dangling_relation_skipped (g : PGraph) (r r2 : OutputSchema)
    (l1 l2 : List Relacion) (relacion : Relacion)
    (hsplit : r.relaciones.relaciones = l1 ++ relacion :: l2)
    (hdang : idxWithId (loadEntities g r).nodes relacion.entidad_origen.entidadId = [] ∨
        idxWithId (loadEntities g r).nodes relacion.entidad_destino.entidadId = [])
    (hr2 : r2 = ⟨r.entidades, ⟨l1 ++ l2⟩⟩) :
    etl_load_to_neo4j g r = etl_load_to_neo4j g r2 := by
  subst hr2
  rw [etl_load_to_neo4j, etl_load_to_neo4j, hsplit]
  have hle : loadEntities g (⟨r.entidades, ⟨l1 ++ l2⟩⟩ : OutputSchema) =
      loadEntities g r := rfl
  dsimp only
  rw [hle, List.foldl_append, List.foldl_append, List.foldl_cons]
  have hmid : (l1.foldl loadRelacion (loadEntities g r)).nodes =
      (loadEntities g r).nodes := foldl_loadRelacion_nodes l1 _
  have hdang2 : idxWithId (l1.foldl loadRelacion (loadEntities g r)).nodes
        relacion.entidad_origen.entidadId = [] ∨
      idxWithId (l1.foldl loadRelacion (loadEntities g r)).nodes
        relacion.entidad_destino.entidadId = [] := by
    rw [hmid]
    exact hdang
  rw [loadRelacion_dangling _ relacion hdang2]

/-- Witness for `dangling_relation_skipped`: a two-entity result whose second
relation references the unknown identifier `"c"` loads exactly like the same
result without that relation. -/
theorem dangling_relation_skipped_witness :
    idxWithId (loadEntities emptyGraph cSchemaDangling).nodes
        cRelBad.entidad_origen.entidadId = [] ∧
    etl_load_to_neo4j emptyGraph cSchemaDangling =
      etl_load_to_neo4j emptyGraph cSchemaClean :=
  ⟨by decide,
    dangling_relation_skipped emptyGraph cSchemaDangling cSchemaClean
      [cRel1] [] cRelBad rfl (Or.inl (by decide)) rfl⟩

/-- **C3, counterexample.** Two relations with distinct ids (`"r1"`, `"r2"`)
but the same source and target identifiers do *not* produce two RELACION
edges: the load leaves exactly one edge, whose `id` property is the
last-loaded relation's id (`"r2"`).  Edge identity in the loader is the
directed endpoint pair, not the relation's own id. -/
theorem relation_identity_counterexample :
    cRel1.id ≠ cRel2.id ∧
    cRel1.entidad_origen.entidadId = cRel2.entidad_origen.entidadId ∧
    cRel1.entidad_destino.entidadId = cRel2.entidad_destino.entidadId ∧
    (etl_load_to_neo4j emptyGraph cSchemaDup).edges.length = 1 ∧
    (etl_load_to_neo4j emptyGraph cSchemaDup).edges.map (fun e => e.props "id") =
      [some (.str "r2")] := by
  refine ⟨by decide, by decide, by decide, by decide, by decide⟩

theorem condUpd_pos (S : MLens α) (op : MOp α) (x : α) (h : op.hit x = true) :
    S.condUpd op x = S.put x (setParams (S.get x) op.ps) := by
  show (if op.hit x = true then S.upd op x else x) = _
  rw [if_pos h]
  rfl

theorem condUpd_neg (S : MLens α) (op : MOp α) (x : α) (h : ¬ op.hit x = true) :
    S.condUpd op x = x := by
  show (if op.hit x = true then S.upd op x else x) = x
  rw [if_neg h]

theorem edge_step_absorb (es : List GEdge) (i j : Nat)
    (ps1 ps2 : List (String × Option PVal))
    (hsub : ∀ k ∈ ps1.map Prod.fst, k ∈ ps2.map Prod.fst) :
    edgeLens.step (edgeLens.step es (edgeOp i j ps1)) (edgeOp i j ps2) =
      edgeLens.step es (edgeOp i j ps2) := by
  have hc2 : ∀ e : GEdge, (edgeOp i j ps1).hit e = true →
      edgeLens.condUpd (edgeOp i j ps2) (edgeLens.condUpd (edgeOp i j ps1) e) =
        edgeLens.condUpd (edgeOp i j ps2) e := by
    intro e hh
    have hh2 : (edgeOp i j ps2).hit e = true := hh
    rw [condUpd_pos _ _ _ hh]
    have hhp : (edgeOp i j ps2).hit
        (edgeLens.put e (setParams (edgeLens.get e) (edgeOp i j ps1).ps)) = true := hh
    rw [condUpd_pos _ _ _ hhp, condUpd_pos _ _ _ hh2]
    rw [edgeLens.put_put, edgeLens.get_put]
    show edgeLens.put e (setParams (setParams (edgeLens.get e) ps1) ps2) = _
    rw [setParams_absorb _ _ _ hsub]
    rfl
  by_cases h : es.any (edgeOp i j ps1).hit
  · have h2 : es.any (edgeOp i j ps2).hit = true := h
    have hstep1 : edgeLens.step es (edgeOp i j ps1) =
        es.map (edgeLens.condUpd (edgeOp i j ps1)) := by
      rw [MLens.step, if_pos h]
    have hany : (es.map (edgeLens.condUpd (edgeOp i j ps1))).any (edgeOp i j ps2).hit
        = true := by
      rw [List.any_map]
      rcases List.any_eq_true.mp h with ⟨e, he, hhe⟩
      refine List.any_eq_true.mpr ⟨e, he, ?_⟩
      show (edgeOp i j ps2).hit (edgeLens.condUpd (edgeOp i j ps1) e) = true
      rw [condUpd_pos _ _ _ hhe]
      exact hhe
    rw [hstep1, MLens.step, if_pos hany, MLens.step, if_pos h2, List.map_map]
    refine List.map_congr_left ?_
    intro e he
    by_cases hh : (edgeOp i j ps1).hit e = true
    · exact hc2 e hh
    · show edgeLens.condUpd (edgeOp i j ps2) (edgeLens.condUpd (edgeOp i j ps1) e) =
        edgeLens.condUpd (edgeOp i j ps2) e
      rw [condUpd_neg _ _ _ hh]
  · have h2 : ¬ es.any (edgeOp i j ps2).hit = true := h
    have hstep1 : edgeLens.step es (edgeOp i j ps1) = es ++ [(edgeOp i j ps1).mkObj] := by
      rw [MLens.step, if_neg h]
    have hmk1 : (edgeOp i j ps2).hit (edgeOp i j ps1).mkObj = true := by
      show (i == i && j == j && ("RELACION" == "RELACION")) = true
      simp
    have hany : (es ++ [(edgeOp i j ps1).mkObj]).any (edgeOp i j ps2).hit = true := by
      rw [List.any_append]
      simp [hmk1]
    rw [hstep1, MLens.step, if_pos hany, MLens.step, if_neg h2, List.map_append]
    have hes : es.map (edgeLens.condUpd (edgeOp i j ps2)) = es := by
      have hid : ∀ e ∈ es, edgeLens.condUpd (edgeOp i j ps2) e = e := by
        intro e he
        have hne : ¬ (edgeOp i j ps2).hit e = true := by
          intro hcon
          exact h2 (List.any_eq_true.mpr ⟨e, he, hcon⟩)
        rw [condUpd_neg _ _ _ hne]
      rw [List.map_congr_left hid]
      simp
    have hmk : [(edgeOp i j ps1).mkObj].map (edgeLens.condUpd (edgeOp i j ps2)) =
        [(edgeOp i j ps2).mkObj] := by
      simp only [List.map_cons, List.map_nil]
      rw [condUpd_pos _ _ _ hmk1]
      show [edgeLens.put (edgeOp i j ps1).mkObj
        (setParams (setParams emptyProps ps1) ps2)] = _
      rw [setParams_absorb _ _ _ hsub]
      rfl
    rw [hes, hmk]

theorem mergeRelEdge_absorb (g : PGraph) (i j : Nat)
    (ps1 ps2 : List (String × Option PVal))
    (hsub : ∀ k ∈ ps1.map Prod.fst, k ∈ ps2.map Prod.fst) :
    mergeRelEdge (mergeRelEdge g i j ps1) i j ps2 = mergeRelEdge g i j ps2 := by
  rw [mergeRelEdge_eq_step, mergeRelEdge_eq_step, mergeRelEdge_eq_step]
  dsimp only
  rw [edge_step_absorb _ _ _ _ _ hsub]

theorem loadRelacion_single (g : PGraph) (relacion : Relacion) (ia ib : Nat)
    (hia : idxWithId g.nodes relacion.entidad_origen.entidadId = [ia])
    (hib : idxWithId g.nodes relacion.entidad_destino.entidadId = [ib]) :
    loadRelacion g relacion = mergeRelEdge g ia ib (relacionParams relacion) := by
  simp only [loadRelacion, hia, hib]
  rfl

/-- **C3, amended.** Relation identity at load time is the directed
`(source, target)` endpoint pair: when each endpoint identifier matches
exactly one node, loading two relations with the same endpoints (whatever
their own ids) leaves the graph exactly as if only the second had been
loaded — one RELACION edge between that pair, carrying the second
relation's description, strength and id. -/
theorem relation_identity_is_endpoint_pair (g : PGraph) (rel1 rel2 : Relacion)
    (ia ib : Nat)
    (ho : rel2.entidad_origen.entidadId = rel1.entidad_origen.entidadId)
    (hd : rel2.entidad_destino.entidadId = rel1.entidad_destino.entidadId)
    (hia : idxWithId g.nodes rel1.entidad_origen.entidadId = [ia])
    (hib : idxWithId g.nodes rel1.entidad_destino.entidadId = [ib]) :
    loadRelacion (loadRelacion g rel1) rel2 = loadRelacion g rel2 := by
  have hsub : ∀ k ∈ (relacionParams rel1).map Prod.fst,
      k ∈ (relacionParams rel2).map Prod.fst := by
    intro k hk
    simp only [relacionParams, List.map_cons, List.map_nil] at hk ⊢
    exact hk
  have h1 : loadRelacion g rel1 = mergeRelEdge g ia ib (relacionParams rel1) :=
    loadRelacion_single g rel1 ia ib hia hib
  have hia1 : idxWithId (loadRelacion g rel1).nodes rel2.entidad_origen.entidadId
      = [ia] := by
    rw [loadRelacion_nodes, ho, hia]
  have hib1 : idxWithId (loadRelacion g rel1).nodes rel2.entidad_destino.entidadId
      = [ib] := by
    rw [loadRelacion_nodes, hd, hib]
  have hia2 : idxWithId g.nodes rel2.entidad_origen.entidadId = [ia] := by
    rw [ho, hia]
  have hib2 : idxWithId g.nodes rel2.entidad_destino.entidadId = [ib] := by
    rw [hd, hib]
  rw [loadRelacion_single _ rel2 ia ib hia1 hib1, h1,
    loadRelacion_single g rel2 ia ib hia2 hib2,
    mergeRelEdge_absorb g ia ib _ _ hsub]

/-- Witness for `relation_identity_is_endpoint_pair`: two relations between
the (uniquely matched) nodes `"a"` and `"b"` collapse onto one edge — the
result of loading only the second. -/
theorem relation_identity_is_endpoint_pair_witness :
    idxWithId cGraphAB.nodes cRel1.entidad_origen.entidadId = [0] ∧
    idxWithId cGraphAB.nodes cRel1.entidad_destino.entidadId = [1] ∧
    loadRelacion (loadRelacion cGraphAB cRel1) cRel2 = loadRelacion cGraphAB cRel2 :=
  ⟨by decide, by decide,
    relation_identity_is_endpoint_pair cGraphAB cRel1 cRel2 0 1
      (by decide) (by decide) (by decide) (by decide)⟩

/-! ### The embedding-maintenance step (C4) -/

theorem entityRecords_no_id (g : PGraph) :
    ∀ rec ∈ entityRecords g, rec.lookup "id" = none := by
  intro rec hrec
  rcases List.mem_map.mp hrec with ⟨p, _, hshape⟩
  rw [← hshape]
  rfl

/-- What `generate_embeddings` actually does: a no-op when no Entity node is
missing its embedding, and a `KeyError` crash (`rec["id"]` on a record whose
keys are `eid` and `text`) as soon as at least one node needs an embedding —
so no embedding is ever computed or stored. -/
theorem generate_embeddings_behaviour (g : PGraph) (embed : String → List ℚ) :
    (entityRecords g = [] → generate_embeddings g embed = .ok g) ∧
    (entityRecords g ≠ [] → generate_embeddings g embed = .error "KeyError: 'id'") := by
  constructor
  · intro h
    rw [generate_embeddings, h]
    rfl
  · intro h
    rw [generate_embeddings]
    cases hrec : entityRecords g with
    | nil => exact absurd hrec h
    | cons rec rest =>
      have hid : rec.lookup "id" = none :=
        entityRecords_no_id g rec (by rw [hrec]; simp)
      simp [setEmbeddingLoop, hid]

/-- **C4** (code bug): on a graph with one `Entity` node that has a `text`
property and no `embedding`, `generate_embeddings` raises `KeyError: 'id'`
instead of computing and storing the node's embedding — the loop body reads
`rec["id"]` although the query aliases its columns `eid` and `text` (and the
update query's `$eid` parameter is passed under the key `id`). -/
theorem generate_embeddings_crashes :
    generate_embeddings ⟨[bugNode], []⟩ (fun _ => []) = .error "KeyError: 'id'" :=
  (generate_embeddings_behaviour ⟨[bugNode], []⟩ (fun _ => [])).2 (by decide)

end YtGraphRag
